import Mathlib

/-!
# Verification of the BlackPlus docstring formatter

A shallow embedding of `blackplus/formatter.py` (class `DocstringFormatter`)
together with the Python standard-library helpers it delegates to
(`textwrap.wrap`, `textwrap.dedent`, `str.strip`, `str.split`,
`str.splitlines`).

Python strings are modelled as `List Char`; the external code formatter
(`black`, reached through a temporary file in `_format_code_snippet`) is
modelled as an explicit functional collaborator of type
`PyStr → Option PyStr`, where `none` stands for the exception outcomes
(`black.NothingChanged` / `black.InvalidInput`) that make the source return
the original snippet, and `some t` stands for a run after which the
temporary file holds the text `t`.
-/

namespace BlackPlus

/-- A Python string, modelled as its list of characters. -/
abbrev PyStr := List Char

/-- Convert a Lean string literal into the model type. -/
def pyStr (s : String) : PyStr := s.data

/-- The newline character. -/
def nl : Char := '\n'

/-- Python's notion of (ASCII) whitespace used by `str.strip`, `str.split`
and `textwrap`: space, tab, newline, carriage return, vertical tab, form
feed. -/
def pyIsSpace (c : Char) : Bool :=
  c = ' ' || c = '\t' || c = '\n' || c = '\r' || c = '\x0b' || c = '\x0c'

/-- Python `str.lstrip()`. -/
def pyLStrip (s : PyStr) : PyStr := s.dropWhile pyIsSpace

/-- Python `str.rstrip()`. -/
def pyRStrip (s : PyStr) : PyStr := (s.reverse.dropWhile pyIsSpace).reverse

/-- Python `str.strip()`. -/
def pyStrip (s : PyStr) : PyStr := pyLStrip (pyRStrip s)

/-- Python `str.split("\n")`: always returns at least one piece, keeps
empty pieces. -/
def splitNL : PyStr → List PyStr
  | [] => [[]]
  | c :: rest =>
    if c = nl then [] :: splitNL rest
    else
      match splitNL rest with
      | [] => [[c]]
      | p :: ps => (c :: p) :: ps

/-- Python `sep.join(pieces)`. -/
def joinSep (sep : PyStr) : List PyStr → PyStr
  | [] => []
  | [x] => x
  | x :: xs => x ++ sep ++ joinSep sep xs

/-- Python `"\n".join(pieces)`. -/
def joinNL : List PyStr → PyStr := joinSep [nl]

/-- Python `str.splitlines()` for texts whose only line break character is
`'\n'` (the only break the formatter ever produces): like `split("\n")`
but without a trailing empty piece, and empty text gives no lines. -/
def pySplitlines (s : PyStr) : List PyStr :=
  if s = [] then []
  else
    let ps := splitNL s
    if ps.getLast? = some [] then ps.dropLast else ps

/-! ## The schema (§ configuration): section specifications

`DocstringFormatter.__init__` stores `config["docstrings"]["sections"]`, an
ordered list of dictionaries.  Each dictionary carries a `"marker"` string,
an optional `"width"` (read with default 72), an optional `"code_example"`
sub-dictionary whose `"start_marker"`/`"end_marker"` are read with defaults
`"```python"` / <three backticks>, and an informational `"name"`.  Python
compares these dictionaries by value (`section != current_section`), which
the derived decidable equality mirrors. -/

structure CodeExampleConfig where
  start_marker : Option PyStr
  end_marker : Option PyStr
deriving DecidableEq

structure SectionSpec where
  name : Option PyStr
  marker : PyStr
  width : Option Nat
  code_example : Option CodeExampleConfig
deriving DecidableEq

/-- `DocstringFormatter._identify_section`: strip the line; the first
section whose empty marker meets an empty stripped line, or whose
non-empty marker is a prefix of the stripped line, wins; no match is
`None`. -/
def identifySection (sections : List SectionSpec) (line : PyStr) : Option SectionSpec :=
  let stripped := pyStrip line
  sections.find? fun sec =>
    decide ((sec.marker = [] ∧ stripped = []) ∨ (sec.marker ≠ [] ∧ sec.marker <+: stripped))

/-! ## `textwrap` (Python standard library), as used by the formatter

`_format_section` calls `textwrap.wrap(line.strip(), width=width)` with all
remaining options at their defaults: `expand_tabs=True` (tabsize 8),
`replace_whitespace=True`, `drop_whitespace=True`, `break_long_words=True`,
`break_on_hyphens=True`, empty `initial_indent`/`subsequent_indent`.
The chunk splitter below produces maximal runs of whitespace /
non-whitespace; the em-dash and mid-word-hyphen refinements of CPython's
`wordsep_re` (which only further split chunks containing hyphenated words)
are not modelled, while the hyphen handling of `_handle_long_word` is. -/

/-- `str.expandtabs(8)` restricted to a tab-stop walk: each tab becomes
spaces up to the next multiple of the tab size; `'\n'`/`'\r'` reset the
column. -/
def expandTabsGo (ts : Nat) : PyStr → Nat → PyStr
  | [], _ => []
  | c :: rest, col =>
    if c = '\t' then
      let n := ts - col % ts
      List.replicate n ' ' ++ expandTabsGo ts rest (col + n)
    else if c = '\n' ∨ c = '\r' then c :: expandTabsGo ts rest 0
    else c :: expandTabsGo ts rest (col + 1)

/-- `TextWrapper._munge_whitespace`: expand tabs, then turn every
whitespace character into a plain space. -/
def munge (s : PyStr) : PyStr :=
  (expandTabsGo 8 s 0).map fun c => if pyIsSpace c then ' ' else c

/-- `TextWrapper._split` (simplified `wordsep_re`, see above): maximal runs
of whitespace and of non-whitespace characters. -/
def splitChunks (s : PyStr) : List PyStr :=
  s.splitBy fun a b => pyIsSpace a = pyIsSpace b

/-- Sum of the lengths of a list of chunks. -/
def sumLen (l : List PyStr) : Nat := (l.map List.length).sum

/-- Index of the last `'-'` in a chunk (`str.rfind('-')`), if any. -/
def rfindHyphen : PyStr → Option Nat
  | [] => none
  | c :: rest =>
    match rfindHyphen rest with
    | some i => some (i + 1)
    | none => if c = '-' then some 0 else none

/-- `TextWrapper._handle_long_word` with `break_long_words=True` and
`break_on_hyphens=True`: split the chunk at the width budget, preferring a
break just after the last hyphen inside the budget when the part before
the hyphen has a non-hyphen character.  Returns the part put on the
current line and the remainder (which stays in the chunk queue even when
empty, as in CPython). -/
def handleLongWord (width curLen : Nat) (chunk : PyStr) : PyStr × PyStr :=
  let spaceLeft := if width < 1 then 1 else width - curLen
  let e :=
    if spaceLeft < chunk.length then
      match rfindHyphen (chunk.take spaceLeft) with
      | some h =>
        if 0 < h ∧ (chunk.take h).any (· ≠ '-') then h + 1 else spaceLeft
      | none => spaceLeft
    else spaceLeft
  (chunk.take e, chunk.drop e)

/-- The greedy inner loop of `TextWrapper._wrap_chunks`: move chunks onto
the current line while they fit.  Returns the current line, its length,
and the untouched remainder. -/
def greedyTake (width : Nat) : List PyStr → Nat → List PyStr × Nat × List PyStr
  | [], len => ([], len, [])
  | c :: rest, len =>
    if len + c.length ≤ width then
      let (tk, fl, rm) := greedyTake width rest (len + c.length)
      (c :: tk, fl, rm)
    else ([], len, c :: rest)

/-- One outer iteration of `TextWrapper._wrap_chunks` repeated under fuel
(the Python `while chunks:` loop): drop a leading whitespace chunk once
output exists, fill the line greedily, break an oversized next chunk,
drop a trailing whitespace chunk from the line, and emit the line if
non-empty. -/
def wrapChunksGo (width : Nat) : Nat → List PyStr → List PyStr → List PyStr
  | 0, _, lines => lines
  | _ + 1, [], lines => lines
  | fuel + 1, c0 :: rest0, lines =>
    let chunks1 := if pyStrip c0 = [] ∧ lines ≠ [] then rest0 else c0 :: rest0
    let t := greedyTake width chunks1 0
    let curLine := t.1
    let curLen := t.2.1
    let rest := t.2.2
    let step2 : List PyStr × List PyStr :=
      match rest with
      | c :: rest' =>
        if width < c.length then
          let hw := handleLongWord width curLen c
          (curLine ++ [hw.1], hw.2 :: rest')
        else (curLine, c :: rest')
      | [] => (curLine, [])
    let curLine2 := step2.1
    let rest2 := step2.2
    let curLine3 :=
      match curLine2.getLast? with
      | some last => if pyStrip last = [] then curLine2.dropLast else curLine2
      | none => curLine2
    let lines2 := if curLine3 ≠ [] then lines ++ [curLine3.flatten] else lines
    wrapChunksGo width fuel rest2 lines2

/-- `textwrap.wrap(text, width)` with default options.  The fuel bounds the
number of outer-loop iterations; each iteration either consumes a chunk or
shortens one, so `sumLen + length + 1` iterations always suffice. -/
def pyWrap (text : PyStr) (width : Nat) : List PyStr :=
  let chunks := splitChunks (munge text)
  wrapChunksGo width (sumLen chunks + chunks.length + 1) chunks []

/-! ## `textwrap.dedent` (Python standard library)

Used by `_format_code_snippet` on the joined code block before handing it
to the external formatter. -/

/-- Leading run of spaces/tabs of a line. -/
def leadingBlanks (l : PyStr) : PyStr := l.takeWhile fun c => c = ' ' || c = '\t'

/-- Longest common prefix of two character lists (the net effect of
`dedent`'s margin update chain). -/
def commonPrefix : PyStr → PyStr → PyStr
  | a :: as, b :: bs => if a = b then a :: commonPrefix as bs else []
  | _, _ => []

/-- `textwrap.dedent`: normalize whitespace-only lines to empty, compute
the margin as the common leading space/tab prefix of all lines with
content, and remove it from the lines that carry it. -/
def dedent (text : PyStr) : PyStr :=
  let lines := (splitNL text).map fun l =>
    if l ≠ [] ∧ l.all (fun c => c = ' ' || c = '\t') then [] else l
  let indents := (lines.filter (· ≠ [])).map leadingBlanks
  let margin :=
    match indents with
    | [] => []
    | i :: is => is.foldl commonPrefix i
  if margin = [] then joinNL lines
  else joinNL (lines.map fun l => if margin <+: l then l.drop margin.length else l)

/-! ## `DocstringFormatter`, embedded

The external formatter collaborator: `none` models the exception branches
(`black.NothingChanged` / `black.InvalidInput`, both returning the
original snippet), `some t` models a run leaving text `t` in the
temporary file. -/

abbrev Fmt := PyStr → Option PyStr

/-- `DocstringFormatter._format_code_snippet`: write `dedent(snippet)` to
the collaborator; on success, re-indent every non-blank line of the
result by the count of leading whitespace characters of the *original*
snippet (`len(code_snippet) - len(code_snippet.lstrip())`); on the
exception branches return the original snippet. -/
def formatCodeSnippet (fmt : Fmt) (code_snippet : PyStr) : PyStr :=
  match fmt (dedent code_snippet) with
  | none => code_snippet
  | some formatted_code =>
    let original_indent := code_snippet.length - (pyLStrip code_snippet).length
    joinNL ((pySplitlines formatted_code).map fun line =>
      if pyStrip line ≠ [] then List.replicate original_indent ' ' ++ line else line)

/-- The loop state of `_format_code_example`: `in_code_block`,
`code_block`, and the output accumulated so far. -/
structure ExState where
  inCode : Bool
  codeBlock : List PyStr
  out : List PyStr
deriving DecidableEq

/-- One iteration of the `_format_code_example` loop. -/
def exStep (fmt : Fmt) (startM endM : PyStr) (st : ExState) (line : PyStr) : ExState :=
  let stripped := pyStrip line
  if stripped = startM then
    { st with inCode := true, out := st.out ++ [stripped] }
  else if stripped = endM then
    let formatted_code := formatCodeSnippet fmt (joinNL st.codeBlock)
    { inCode := false, codeBlock := [],
      out := st.out ++ splitNL formatted_code ++ [stripped] }
  else if st.inCode then
    { st with codeBlock := st.codeBlock ++ [line] }
  else
    { st with out := st.out ++ [line] }

/-- The full `_format_code_example` loop over the content lines. -/
def exRun (fmt : Fmt) (startM endM : PyStr) (content : List PyStr) : ExState :=
  content.foldl (exStep fmt startM endM) ⟨false, [], []⟩

/-- `DocstringFormatter._format_code_example`: resolve the marker defaults
and run the loop; whatever is still buffered in `code_block` at the end is
not emitted. -/
def formatCodeExample (fmt : Fmt) (content : List PyStr)
    (code_config : CodeExampleConfig) : List PyStr :=
  let startM := code_config.start_marker.getD (pyStr "```python")
  let endM := code_config.end_marker.getD (pyStr "```")
  (exRun fmt startM endM content).out

/-- `DocstringFormatter._format_section`.  With no section: stripped
non-empty lines joined by newlines.  Otherwise wrap prose lines (blank
lines pass as empty lines) or delegate to the code-example machine, strip
the joined body, and put a non-empty marker on its own first line. -/
def formatSection (fmt : Fmt) (sec : Option SectionSpec) (content : List PyStr) : PyStr :=
  match sec with
  | none => joinNL ((content.filter fun l => pyStrip l ≠ []).map pyStrip)
  | some s =>
    let width := s.width.getD 72
    let formatted_content :=
      match s.code_example with
      | some cfg => formatCodeExample fmt content cfg
      | none =>
        content.foldl (fun acc line =>
          if pyStrip line ≠ [] then acc ++ pyWrap (pyStrip line) width
          else acc ++ [[]]) []
    let section_content := pyStrip (joinNL formatted_content)
    if s.marker ≠ [] then s.marker ++ nl :: section_content else section_content

/-- The accumulation state of `format_docstring`: current section, current
content buffer, and the formatted sections emitted so far. -/
structure FmtState where
  current : Option SectionSpec
  content : List PyStr
  formatted : List PyStr
deriving DecidableEq

/-- One iteration of the `format_docstring` accumulation loop: a line that
classifies to a section different from the current one flushes the buffer
(unless both current section and buffer are empty) and starts a new one —
the line itself is not buffered; every other line is appended. -/
def fdStep (fmt : Fmt) (sections : List SectionSpec) (st : FmtState) (line : PyStr) :
    FmtState :=
  match identifySection sections line with
  | some s =>
    if some s ≠ st.current then
      { current := some s, content := [],
        formatted :=
          if st.current.isSome ∨ st.content ≠ [] then
            st.formatted ++ [formatSection fmt st.current st.content]
          else st.formatted }
    else { st with content := st.content ++ [line] }
  | none => { st with content := st.content ++ [line] }

/-- `DocstringFormatter.format_docstring`: split into lines, accumulate,
flush the final buffer, drop empty formatted sections, join with blank
lines and strip. -/
def formatDocstring (fmt : Fmt) (sections : List SectionSpec) (docstring : PyStr) : PyStr :=
  let lines := splitNL docstring
  let init : FmtState := ⟨identifySection sections [], [], []⟩
  let fin := lines.foldl (fdStep fmt sections) init
  let formatted_sections :=
    if fin.current.isSome ∨ fin.content ≠ [] then
      fin.formatted ++ [formatSection fmt fin.current fin.content]
    else fin.formatted
  pyStrip (joinSep [nl, nl] (formatted_sections.filter (· ≠ [])))

/-! ## The segment view of the accumulation loop

`format_docstring` formats each segment as soon as it is flushed; for the
segment-level claims the same loop is stated with the raw
`(section, lines)` pairs collected instead, and proved equivalent. -/

/-- Accumulation state collecting raw segments. -/
structure AccState where
  current : Option SectionSpec
  content : List PyStr
  segs : List (Option SectionSpec × List PyStr)
deriving DecidableEq

/-- The accumulation step of `format_docstring`, collecting the flushed
`(section, lines)` pairs instead of formatting them. -/
def accStep (sections : List SectionSpec) (st : AccState) (line : PyStr) : AccState :=
  match identifySection sections line with
  | some s =>
    if some s ≠ st.current then
      { current := some s, content := [],
        segs :=
          if st.current.isSome ∨ st.content ≠ [] then
            st.segs ++ [(st.current, st.content)]
          else st.segs }
    else { st with content := st.content ++ [line] }
  | none => { st with content := st.content ++ [line] }

/-- Run the accumulation over a line list. -/
def accRun (sections : List SectionSpec) (lines : List PyStr) : AccState :=
  lines.foldl (accStep sections) ⟨identifySection sections [], [], []⟩

/-- The segment list of `format_docstring`'s accumulation loop, final
flush included. -/
def accumulateSegments (sections : List SectionSpec) (lines : List PyStr) :
    List (Option SectionSpec × List PyStr) :=
  let fin := accRun sections lines
  if fin.current.isSome ∨ fin.content ≠ [] then fin.segs ++ [(fin.current, fin.content)]
  else fin.segs

/-! ## Helper lemmas about the string model -/

theorem splitNL_ne_nil (s : PyStr) : splitNL s ≠ [] := by
  cases s with
  | nil => simp [splitNL]
  | cons c rest =>
    simp only [splitNL]
    split
    · simp
    · cases h : splitNL rest <;> simp

theorem mem_of_mem_splitNL {s p : PyStr} {c : Char} (hp : p ∈ splitNL s) (hc : c ∈ p) :
    c ∈ s := by
  induction s generalizing p with
  | nil =>
    simp only [splitNL, List.mem_singleton] at hp
    subst hp
    simp at hc
  | cons a rest ih =>
    simp only [splitNL] at hp
    by_cases ha : a = nl
    · rw [if_pos ha] at hp
      rcases List.mem_cons.mp hp with h | h
      · subst h; simp at hc
      · exact List.mem_cons_of_mem _ (ih h hc)
    · rw [if_neg ha] at hp
      rcases hsp : splitNL rest with _ | ⟨q, qs⟩
      · exact absurd hsp (splitNL_ne_nil rest)
      · rw [hsp] at hp
        rcases List.mem_cons.mp hp with h | h
        · subst h
          rcases List.mem_cons.mp hc with h | h
          · simp [h]
          · exact List.mem_cons_of_mem _
              (ih (by rw [hsp]; exact List.mem_cons_self _ _) h)
        · exact List.mem_cons_of_mem _
            (ih (by rw [hsp]; exact List.mem_cons_of_mem _ h) hc)

theorem not_nl_mem_of_mem_splitNL {s p : PyStr} (hp : p ∈ splitNL s) : nl ∉ p := by
  induction s generalizing p with
  | nil =>
    simp only [splitNL, List.mem_singleton] at hp
    subst hp; simp
  | cons a rest ih =>
    simp only [splitNL] at hp
    by_cases ha : a = nl
    · rw [if_pos ha] at hp
      rcases List.mem_cons.mp hp with h | h
      · subst h; simp
      · exact ih h
    · rw [if_neg ha] at hp
      rcases hsp : splitNL rest with _ | ⟨q, qs⟩
      · exact absurd hsp (splitNL_ne_nil rest)
      · rw [hsp] at hp
        rcases List.mem_cons.mp hp with h | h
        · subst h
          intro hmem
          rcases List.mem_cons.mp hmem with h | h
          · exact ha h.symm
          · exact ih (by rw [hsp]; exact List.mem_cons_self _ _) h
        · exact ih (by rw [hsp]; exact List.mem_cons_of_mem _ h)

theorem splitNL_eq_single {x : PyStr} (h : nl ∉ x) : splitNL x = [x] := by
  induction x with
  | nil => rfl
  | cons c rest ih =>
    have hc : ¬c = nl := fun he => h (by simp [he])
    have hr : nl ∉ rest := fun hm => h (List.mem_cons_of_mem _ hm)
    simp only [splitNL, if_neg hc, ih hr]

theorem splitNL_append_nl {x s : PyStr} (h : nl ∉ x) :
    splitNL (x ++ nl :: s) = x :: splitNL s := by
  induction x with
  | nil => simp [splitNL, nl]
  | cons c rest ih =>
    have hc : ¬c = nl := fun he => h (by simp [he])
    have hr : nl ∉ rest := fun hm => h (List.mem_cons_of_mem _ hm)
    simp only [List.cons_append, splitNL, if_neg hc, List.append_eq, ih hr]

theorem joinSep_cons_cons (sep x y : PyStr) (ys : List PyStr) :
    joinSep sep (x :: y :: ys) = x ++ sep ++ joinSep sep (y :: ys) := rfl

theorem splitNL_joinNL {xs : List PyStr} (hne : xs ≠ []) (h : ∀ x ∈ xs, nl ∉ x) :
    splitNL (joinNL xs) = xs := by
  induction xs with
  | nil => cases hne rfl
  | cons x xs ih =>
    cases xs with
    | nil => exact splitNL_eq_single (h x (List.mem_cons_self _ _))
    | cons y ys =>
      have : joinNL (x :: y :: ys) = x ++ nl :: joinNL (y :: ys) := by
        simp [joinNL, joinSep_cons_cons]
      rw [this, splitNL_append_nl (h x (List.mem_cons_self _ _))]
      rw [ih (by simp) fun z hz => h z (List.mem_cons_of_mem _ hz)]

theorem joinNL_ne_nil_of_head_ne_nil {x : PyStr} {xs : List PyStr} (hx : x ≠ []) :
    joinNL (x :: xs) ≠ [] := by
  cases xs with
  | nil => exact hx
  | cons y ys =>
    rw [joinNL, joinSep_cons_cons]
    simp [hx]

theorem pyLStrip_head?_not {s : PyStr} {c : Char} (h : (pyLStrip s).head? = some c) :
    pyIsSpace c = false := by
  have := List.head?_dropWhile_not pyIsSpace s
  rw [pyLStrip] at h
  rw [h] at this
  simpa using this

theorem pyRStrip_getLast?_not {s : PyStr} {c : Char} (h : (pyRStrip s).getLast? = some c) :
    pyIsSpace c = false := by
  rw [pyRStrip, List.getLast?_reverse] at h
  have := List.head?_dropWhile_not pyIsSpace s.reverse
  rw [h] at this
  simpa using this

theorem pyLStrip_eq_self {s : PyStr} (h : ∀ c, s.head? = some c → pyIsSpace c = false) :
    pyLStrip s = s := by
  cases s with
  | nil => rfl
  | cons c rest =>
    rw [pyLStrip, List.dropWhile_cons_of_neg]
    simp [h c rfl]

theorem pyRStrip_eq_self {s : PyStr} (h : ∀ c, s.getLast? = some c → pyIsSpace c = false) :
    pyRStrip s = s := by
  rw [pyRStrip]
  have : s.reverse.dropWhile pyIsSpace = s.reverse := by
    cases hr : s.reverse with
    | nil => rfl
    | cons c rest =>
      rw [List.dropWhile_cons_of_neg]
      have : s.getLast? = some c := by rw [← List.head?_reverse, hr]; rfl
      simp [h c this]
  rw [this, List.reverse_reverse]

theorem pyStrip_eq_self {s : PyStr}
    (hh : ∀ c, s.head? = some c → pyIsSpace c = false)
    (hl : ∀ c, s.getLast? = some c → pyIsSpace c = false) : pyStrip s = s := by
  rw [pyStrip, pyRStrip_eq_self hl, pyLStrip_eq_self hh]

theorem pyStrip_head?_not {s : PyStr} {c : Char} (h : (pyStrip s).head? = some c) :
    pyIsSpace c = false := pyLStrip_head?_not h

theorem pyStrip_getLast?_not {s : PyStr} {c : Char} (h : (pyStrip s).getLast? = some c) :
    pyIsSpace c = false := by
  have hne : pyLStrip (pyRStrip s) ≠ [] := by
    intro he
    rw [pyStrip, he] at h
    simp at h
  simp only [pyStrip, pyLStrip] at h hne
  have hg : (pyRStrip s).getLast? = some c := by
    conv_lhs => rw [← List.takeWhile_append_dropWhile (p := pyIsSpace) (l := pyRStrip s)]
    rw [List.getLast?_append_of_ne_nil _ hne]
    exact h
  exact pyRStrip_getLast?_not hg

theorem pyStrip_idem (s : PyStr) : pyStrip (pyStrip s) = pyStrip s := by
  rcases h : pyStrip s with _ | ⟨c, t⟩
  · rfl
  · rw [← h]
    refine pyStrip_eq_self (fun a ha => pyStrip_head?_not ha)
      (fun a ha => pyStrip_getLast?_not ha)

theorem pyStrip_eq_nil_iff {s : PyStr} :
    pyStrip s = [] ↔ ∀ c ∈ s, pyIsSpace c := by
  constructor
  · intro h c hc
    rw [pyStrip, pyLStrip] at h
    have hall : ∀ x ∈ pyRStrip s, pyIsSpace x := List.dropWhile_eq_nil_iff.mp h
    have hrev : c ∈ s.reverse := List.mem_reverse.mpr hc
    rw [← List.takeWhile_append_dropWhile (p := pyIsSpace) (l := s.reverse)] at hrev
    rcases List.mem_append.mp hrev with h1 | h1
    · exact List.mem_takeWhile_imp h1
    · exact hall c (by rw [pyRStrip]; exact List.mem_reverse.mpr h1)
  · intro h
    have h1 : pyRStrip s = [] := by
      rw [pyRStrip, List.dropWhile_eq_nil_iff.mpr
        (fun x hx => h x (List.mem_reverse.mp hx))]
      rfl
    rw [pyStrip, h1]
    rfl

theorem strip_self_head_not {x : PyStr} (hs : pyStrip x = x) {c : Char}
    (h : x.head? = some c) : pyIsSpace c = false :=
  pyStrip_head?_not (by rw [hs]; exact h)

theorem strip_self_getLast_not {x : PyStr} (hs : pyStrip x = x) {c : Char}
    (h : x.getLast? = some c) : pyIsSpace c = false :=
  pyStrip_getLast?_not (by rw [hs]; exact h)

/-- A newline-join of non-empty, already-stripped pieces is itself
stripped. -/
theorem pyStrip_joinNL {xs : List PyStr}
    (h : ∀ x ∈ xs, x ≠ [] ∧ pyStrip x = x) : pyStrip (joinNL xs) = joinNL xs := by
  induction xs with
  | nil => rfl
  | cons x xs ih =>
    cases xs with
    | nil =>
      exact (h x (List.mem_cons_self _ _)).2
    | cons y ys =>
      obtain ⟨hxne, hxs⟩ := h x (List.mem_cons_self _ _)
      have htail : ∀ z ∈ y :: ys, z ≠ [] ∧ pyStrip z = z :=
        fun z hz => h z (List.mem_cons_of_mem _ hz)
      have htne : joinNL (y :: ys) ≠ [] :=
        joinNL_ne_nil_of_head_ne_nil (htail y (List.mem_cons_self _ _)).1
      have hjoin : joinNL (x :: y :: ys) = x ++ (nl :: joinNL (y :: ys)) := by
        simp [joinNL, joinSep_cons_cons]
      refine pyStrip_eq_self ?_ ?_
      · intro c hc
        rw [hjoin, List.head?_append_of_ne_nil _ hxne] at hc
        exact strip_self_head_not hxs hc
      · intro c hc
        rw [hjoin, List.getLast?_append_of_ne_nil _ (by simp)] at hc
        have hcc : (nl :: joinNL (y :: ys)).getLast? = (joinNL (y :: ys)).getLast? := by
          rcases ht : joinNL (y :: ys) with _ | ⟨t0, ts⟩
          · exact absurd ht htne
          · rw [List.getLast?_cons_cons]
        rw [hcc] at hc
        exact strip_self_getLast_not (ih htail) hc

theorem pyStrip_sublist (s : PyStr) : List.Sublist (pyStrip s) s := by
  have h1 : List.Sublist (pyRStrip s) s := by
    have := (List.dropWhile_sublist (l := s.reverse) (p := pyIsSpace)).reverse
    rwa [List.reverse_reverse] at this
  exact (List.dropWhile_sublist _).trans h1

theorem mem_of_mem_pyStrip {s : PyStr} {c : Char} (h : c ∈ pyStrip s) : c ∈ s :=
  (pyStrip_sublist s).mem h

/-- All characters of a newline-join of all-whitespace pieces are
whitespace. -/
theorem joinNL_all_space {xs : List PyStr}
    (h : ∀ x ∈ xs, ∀ c ∈ x, pyIsSpace c) : ∀ c ∈ joinNL xs, pyIsSpace c := by
  induction xs with
  | nil => intro c hc; simp [joinNL, joinSep] at hc
  | cons x xs ih =>
    cases xs with
    | nil => exact h x (List.mem_cons_self _ _)
    | cons y ys =>
      intro c hc
      rw [show joinNL (x :: y :: ys) = x ++ (nl :: joinNL (y :: ys)) by
        simp [joinNL, joinSep_cons_cons]] at hc
      rcases List.mem_append.mp hc with h1 | h1
      · exact h x (List.mem_cons_self _ _) c h1
      · rcases List.mem_cons.mp h1 with h2 | h2
        · subst h2; decide
        · exact ih (fun z hz => h z (List.mem_cons_of_mem _ hz)) c h2

/-! ## The empty-schema behaviour of `format_docstring` -/

theorem identifySection_nil (line : PyStr) : identifySection [] line = none := rfl

theorem foldl_fdStep_nil_sections (fmt : Fmt) (lines : List PyStr) :
    ∀ st : FmtState, lines.foldl (fdStep fmt []) st =
      ⟨st.current, st.content ++ lines, st.formatted⟩ := by
  induction lines with
  | nil => intro st; simp
  | cons l rest ih =>
    intro st
    rw [List.foldl_cons,
      show fdStep fmt [] st l = ⟨st.current, st.content ++ [l], st.formatted⟩ from rfl,
      ih]
    simp

/-- With an empty section list every line classifies to `None`, a single
section-less segment holds all lines, and `format_docstring` returns the
stripped non-blank lines joined by single newlines. -/
theorem formatDocstring_nil_eq (fmt : Fmt) (d : PyStr) :
    formatDocstring fmt [] d =
      joinNL (((splitNL d).filter fun l => pyStrip l ≠ []).map pyStrip) := by
  have hpieces : ∀ p ∈ ((splitNL d).filter fun l => pyStrip l ≠ []).map pyStrip,
      p ≠ [] ∧ pyStrip p = p := by
    intro p hp
    obtain ⟨l, hl, rfl⟩ := List.mem_map.mp hp
    have := (List.mem_filter.mp hl).2
    exact ⟨by simpa using this, pyStrip_idem l⟩
  simp only [formatDocstring]
  rw [show (⟨identifySection [] [], [], []⟩ : FmtState) = ⟨none, [], []⟩ from rfl,
    foldl_fdStep_nil_sections fmt (splitNL d) ⟨none, [], []⟩]
  simp only [List.nil_append]
  rw [if_pos (Or.inr (splitNL_ne_nil d))]
  rw [show formatSection fmt none (splitNL d) =
    joinNL (((splitNL d).filter fun l => pyStrip l ≠ []).map pyStrip) from rfl]
  set g := joinNL (((splitNL d).filter fun l => pyStrip l ≠ []).map pyStrip) with hg
  by_cases hgnil : g = []
  · rw [hgnil]
    have : List.filter (fun x => decide (x ≠ [])) [([] : PyStr)] = [] := rfl
    rw [this]
    rfl
  · rw [List.filter_cons, if_pos (by simpa using hgnil)]
    simp only [List.filter_nil]
    rw [show joinSep [nl, nl] [g] = g from rfl, hg]
    exact pyStrip_joinNL hpieces

/-- With an empty section list `format_docstring` is idempotent (the
output lines are exactly the stripped non-blank lines, which a second run
reproduces). -/
theorem formatDocstring_nil_idem (fmt fmt' : Fmt) (d : PyStr) :
    formatDocstring fmt [] (formatDocstring fmt' [] d) = formatDocstring fmt' [] d := by
  rw [formatDocstring_nil_eq fmt', formatDocstring_nil_eq fmt]
  have hpieces : ∀ p ∈ ((splitNL d).filter fun l => pyStrip l ≠ []).map pyStrip,
      p ≠ [] ∧ pyStrip p = p ∧ nl ∉ p := by
    intro p hp
    obtain ⟨l, hl, rfl⟩ := List.mem_map.mp hp
    obtain ⟨hmem, hne⟩ := List.mem_filter.mp hl
    refine ⟨by simpa using hne, pyStrip_idem l, fun hmem' => ?_⟩
    exact not_nl_mem_of_mem_splitNL hmem (mem_of_mem_pyStrip hmem')
  rcases hps : ((splitNL d).filter fun l => pyStrip l ≠ []).map pyStrip with _ | ⟨p0, prest⟩
  · rfl
  · rw [hps] at hpieces
    rw [splitNL_joinNL (by simp) fun x hx => (hpieces x hx).2.2]
    rw [List.filter_eq_self.mpr fun a ha => by
      rw [(hpieces a ha).2.1]; simpa using (hpieces a ha).1]
    rw [show List.map pyStrip (p0 :: prest) = List.map id (p0 :: prest) from
      List.map_congr_left fun a ha => (hpieces a ha).2.1, List.map_id]

/-! ## Run lemmas for the code-example machine and the accumulator -/

theorem exRun_append (fmt : Fmt) (sM eM : PyStr) (pre post : List PyStr) :
    exRun fmt sM eM (pre ++ post) = post.foldl (exStep fmt sM eM) (exRun fmt sM eM pre) :=
  List.foldl_append _ _ _ _

theorem accRun_append (sections : List SectionSpec) (pre post : List PyStr) :
    accRun sections (pre ++ post) =
      post.foldl (accStep sections) (accRun sections pre) :=
  List.foldl_append _ _ _ _

theorem exStep_start (fmt : Fmt) (sM eM : PyStr) (st : ExState) (line : PyStr)
    (hs : pyStrip line = sM) :
    exStep fmt sM eM st line = ⟨true, st.codeBlock, st.out ++ [pyStrip line]⟩ := by
  simp only [exStep, if_pos hs]

theorem exStep_end (fmt : Fmt) (sM eM : PyStr) (st : ExState) (line : PyStr)
    (hs : pyStrip line ≠ sM) (he : pyStrip line = eM) :
    exStep fmt sM eM st line =
      ⟨false, [],
        st.out ++ splitNL (formatCodeSnippet fmt (joinNL st.codeBlock)) ++ [pyStrip line]⟩ := by
  simp only [exStep, if_neg hs, if_pos he]

theorem exStep_inside_other (fmt : Fmt) (sM eM : PyStr) (st : ExState) (line : PyStr)
    (hin : st.inCode = true) (hs : pyStrip line ≠ sM) (he : pyStrip line ≠ eM) :
    exStep fmt sM eM st line = ⟨true, st.codeBlock ++ [line], st.out⟩ := by
  simp only [exStep, if_neg hs, if_neg he, hin, if_true]

theorem exStep_outside_other (fmt : Fmt) (sM eM : PyStr) (st : ExState) (line : PyStr)
    (hin : st.inCode = false) (hs : pyStrip line ≠ sM) (he : pyStrip line ≠ eM) :
    exStep fmt sM eM st line = ⟨false, st.codeBlock, st.out ++ [line]⟩ := by
  simp only [exStep, if_neg hs, if_neg he, hin, if_false, Bool.false_eq_true]

/-- Inside an open fence, lines matching neither marker are only ever
appended to the buffer: the output never sees them. -/
theorem foldl_exStep_inside (fmt : Fmt) (sM eM : PyStr) (body : List PyStr) :
    ∀ st : ExState, st.inCode = true →
    (∀ l ∈ body, pyStrip l ≠ sM ∧ pyStrip l ≠ eM) →
    body.foldl (exStep fmt sM eM) st = ⟨true, st.codeBlock ++ body, st.out⟩ := by
  induction body with
  | nil => intro st h _; rw [List.foldl_nil, List.append_nil, ← h]
  | cons l rest ih =>
    intro st h hall
    rw [List.foldl_cons,
      exStep_inside_other fmt sM eM st l h (hall l (List.mem_cons_self _ _)).1
        (hall l (List.mem_cons_self _ _)).2,
      ih _ rfl fun x hx => hall x (List.mem_cons_of_mem _ hx)]
    simp

/-! ## The partition structure of the accumulator -/

/-- The input lines an accumulation state has distributed so far:
buffered segment lines followed by the current buffer. -/
def accJoined (st : AccState) : List PyStr := (st.segs.map Prod.snd).flatten ++ st.content

theorem accStep_joined_sublist (sections : List SectionSpec) (st : AccState) (l : PyStr) :
    List.Sublist (accJoined (accStep sections st l)) (accJoined st ++ [l]) := by
  rcases h : identifySection sections l with _ | s
  · simp only [accStep, h, accJoined, List.append_assoc]
    exact List.Sublist.refl _
  · simp only [accStep, h]
    by_cases hne : some s ≠ st.current
    · rw [if_pos hne]
      by_cases hf : st.current.isSome ∨ st.content ≠ []
      · rw [if_pos hf]
        simp only [accJoined, List.map_append, List.flatten_append, List.map_cons,
          List.map_nil, List.flatten_cons, List.flatten_nil, List.append_nil,
          List.append_assoc]
        exact (List.sublist_append_left _ _).append_left _
      · rw [if_neg hf]
        push_neg at hf
        simp only [accJoined, hf.2, List.append_nil]
        exact List.sublist_append_left _ _
    · rw [if_neg hne]
      simp only [accJoined, List.append_assoc]
      exact List.Sublist.refl _

theorem accJoined_foldl_sublist (sections : List SectionSpec) (lines : List PyStr) :
    ∀ st : AccState,
      List.Sublist (accJoined (lines.foldl (accStep sections) st)) (accJoined st ++ lines) := by
  induction lines with
  | nil => intro st; simp
  | cons l rest ih =>
    intro st
    rw [List.foldl_cons]
    refine (ih (accStep sections st l)).trans ?_
    have := (accStep_joined_sublist sections st l).append_right rest
    simpa [List.append_assoc] using this

/-- The concatenated segment buffers form a subsequence of the input
lines. -/
theorem accumulateSegments_flatten_sublist (sections : List SectionSpec)
    (lines : List PyStr) :
    List.Sublist (((accumulateSegments sections lines).map Prod.snd).flatten) lines := by
  have hrun := accJoined_foldl_sublist sections lines ⟨identifySection sections [], [], []⟩
  have hinit : accJoined ⟨identifySection sections [], [], []⟩ = [] := by
    simp [accJoined]
  rw [hinit, List.nil_append] at hrun
  rw [accumulateSegments, accRun]
  set fin := lines.foldl (accStep sections) ⟨identifySection sections [], [], []⟩ with hfin
  by_cases hf : fin.current.isSome ∨ fin.content ≠ []
  · rw [if_pos hf]
    simpa [accJoined] using hrun
  · rw [if_neg hf]
    push_neg at hf
    have : accJoined fin = (fin.segs.map Prod.snd).flatten := by
      simp [accJoined, hf.2]
    rw [← this]
    exact hrun

/-! ## `format_docstring` formats exactly its accumulated segments -/

theorem fdStep_eq_accStep (fmt : Fmt) (sections : List SectionSpec) (st : AccState)
    (line : PyStr) :
    fdStep fmt sections ⟨st.current, st.content, st.segs.map fun p => formatSection fmt p.1 p.2⟩
        line =
      ⟨(accStep sections st line).current, (accStep sections st line).content,
        (accStep sections st line).segs.map fun p => formatSection fmt p.1 p.2⟩ := by
  rcases h : identifySection sections line with _ | s
  · simp only [fdStep, accStep, h]
  · simp only [fdStep, accStep, h]
    by_cases hne : some s ≠ st.current
    · simp only [if_pos hne]
      by_cases hf : st.current.isSome ∨ st.content ≠ []
      · simp [if_pos hf]
      · simp [if_neg hf]
    · simp only [if_neg hne]

theorem foldl_fdStep_eq_accStep (fmt : Fmt) (sections : List SectionSpec)
    (lines : List PyStr) :
    ∀ st : AccState,
      lines.foldl (fdStep fmt sections)
          ⟨st.current, st.content, st.segs.map fun p => formatSection fmt p.1 p.2⟩ =
        ⟨(lines.foldl (accStep sections) st).current,
          (lines.foldl (accStep sections) st).content,
          (lines.foldl (accStep sections) st).segs.map fun p => formatSection fmt p.1 p.2⟩ := by
  induction lines with
  | nil => intro st; rfl
  | cons l rest ih =>
    intro st
    rw [List.foldl_cons, fdStep_eq_accStep, ih (accStep sections st l), List.foldl_cons]

/-- `format_docstring` is the composite: accumulate segments, format each,
drop the empty ones, join with blank lines, strip. -/
theorem formatDocstring_eq_segments (fmt : Fmt) (sections : List SectionSpec) (d : PyStr) :
    formatDocstring fmt sections d =
      pyStrip (joinSep [nl, nl]
        (((accumulateSegments sections (splitNL d)).map fun p =>
            formatSection fmt p.1 p.2).filter (· ≠ []))) := by
  simp only [formatDocstring, accumulateSegments, accRun]
  rw [show (⟨identifySection sections [], [], []⟩ : FmtState) =
      ⟨(⟨identifySection sections [], [], []⟩ : AccState).current,
        (⟨identifySection sections [], [], []⟩ : AccState).content,
        (⟨identifySection sections [], [], []⟩ : AccState).segs.map fun p =>
          formatSection fmt p.1 p.2⟩ from rfl,
    foldl_fdStep_eq_accStep fmt sections (splitNL d) ⟨identifySection sections [], [], []⟩]
  by_cases hf : ((splitNL d).foldl (accStep sections)
      ⟨identifySection sections [], [], []⟩).current.isSome ∨
      ((splitNL d).foldl (accStep sections)
        ⟨identifySection sections [], [], []⟩).content ≠ []
  · rw [if_pos hf, if_pos hf]
    simp [List.map_append]
  · rw [if_neg hf, if_neg hf]

/-! ## Whitespace-only docstrings -/

theorem blank_lines_of_strip_nil {d : PyStr} (h : pyStrip d = []) :
    ∀ l ∈ splitNL d, pyStrip l = [] := by
  intro l hl
  rw [pyStrip_eq_nil_iff] at h ⊢
  intro c hc
  exact h c (mem_of_mem_splitNL hl hc)

theorem identifySection_blank {sections : List SectionSpec} {line : PyStr} {s : SectionSpec}
    (h : identifySection sections line = some s) (hb : pyStrip line = []) :
    s.marker = [] := by
  simp only [identifySection] at h
  have hp := List.find?_some h
  rw [hb] at hp
  rcases of_decide_eq_true hp with ⟨h1, _⟩ | ⟨h1, h2⟩
  · exact h1
  · exact absurd (List.prefix_nil.mp h2) h1

theorem prose_fold_blank (width : Nat) (content : List PyStr) :
    ∀ acc : List PyStr, (∀ l ∈ content, pyStrip l = []) →
      content.foldl (fun acc line =>
          if pyStrip line ≠ [] then acc ++ pyWrap (pyStrip line) width
          else acc ++ [[]]) acc
        = acc ++ List.replicate content.length [] := by
  induction content with
  | nil => intro acc _; simp
  | cons l rest ih =>
    intro acc hall
    rw [List.foldl_cons, if_neg (by simp [hall l (List.mem_cons_self _ _)]),
      ih _ fun x hx => hall x (List.mem_cons_of_mem _ hx)]
    simp [List.replicate_succ]

theorem dedent_nil : dedent [] = [] := rfl

theorem formatCodeSnippet_nil {fmt : Fmt} (hfmt : fmt [] = none ∨ fmt [] = some []) :
    formatCodeSnippet fmt [] = [] := by
  rw [formatCodeSnippet, dedent_nil]
  rcases hfmt with h | h <;> rw [h]
  · rfl

/-- Processing only blank lines, the code-example machine keeps an empty
buffer and emits only blank lines (given the collaborator's behaviour on
the empty snippet). -/
theorem exRun_blank_out (fmt : Fmt) (sM eM : PyStr)
    (hfmt : fmt [] = none ∨ fmt [] = some []) (content : List PyStr) :
    ∀ st : ExState, (st.inCode = true → sM = []) → st.codeBlock = [] →
      (∀ l ∈ st.out, pyStrip l = []) → (∀ l ∈ content, pyStrip l = []) →
      ((content.foldl (exStep fmt sM eM) st).inCode = true → sM = []) ∧
        (content.foldl (exStep fmt sM eM) st).codeBlock = [] ∧
        (∀ l ∈ (content.foldl (exStep fmt sM eM) st).out, pyStrip l = []) := by
  induction content with
  | nil => intro st h1 h2 h3 _; exact ⟨h1, h2, h3⟩
  | cons l rest ih =>
    intro st h1 h2 h3 hall
    have hb : pyStrip l = [] := hall l (List.mem_cons_self _ _)
    have hrest : ∀ x ∈ rest, pyStrip x = [] := fun x hx => hall x (List.mem_cons_of_mem _ hx)
    rw [List.foldl_cons]
    by_cases hsm : pyStrip l = sM
    · rw [exStep_start fmt sM eM st l hsm]
      refine ih _ (fun _ => hsm ▸ hb) h2 ?_ hrest
      intro x hx
      rcases List.mem_append.mp hx with h | h
      · exact h3 x h
      · rw [List.mem_singleton.mp h, hb]
        rfl
    · by_cases hem : pyStrip l = eM
      · rw [exStep_end fmt sM eM st l hsm hem]
        refine ih _ (fun hc => by simp at hc) rfl ?_ hrest
        intro x hx
        rw [h2] at hx
        rcases List.mem_append.mp hx with h | h
        · rcases List.mem_append.mp h with h' | h'
          · exact h3 x h'
          · rw [show joinNL [] = [] from rfl, formatCodeSnippet_nil hfmt] at h'
            rw [show splitNL [] = [[]] from rfl] at h'
            rw [List.mem_singleton.mp h']
            rfl
        · rw [List.mem_singleton.mp h, hb]
          rfl
      · rcases hin : st.inCode with _ | _
        · rw [exStep_outside_other fmt sM eM st l hin hsm hem]
          refine ih _ (fun hc => by simp at hc) h2 ?_ hrest
          intro x hx
          rcases List.mem_append.mp hx with h | h
          · exact h3 x h
          · rw [List.mem_singleton.mp h]; exact hb
        · exact absurd (h1 hin ▸ hb) (h1 hin ▸ hsm)

/-- A segment whose section is absent or has an empty marker formats
blank-only content to the empty string. -/
theorem formatSection_blank (fmt : Fmt) (hfmt : fmt [] = none ∨ fmt [] = some [])
    (sec : Option SectionSpec) (hsec : ∀ s, sec = some s → s.marker = [])
    (content : List PyStr) (hall : ∀ l ∈ content, pyStrip l = []) :
    formatSection fmt sec content = [] := by
  rcases sec with _ | s
  · simp only [formatSection]
    rw [show (content.filter fun l => pyStrip l ≠ []) = [] from
      List.filter_eq_nil_iff.mpr fun a ha => by simp [hall a ha]]
    rfl
  · have hm := hsec s rfl
    simp only [formatSection]
    have hblankout : ∀ out : List PyStr, (∀ l ∈ out, pyStrip l = []) →
        pyStrip (joinNL out) = [] := by
      intro out hout
      rw [pyStrip_eq_nil_iff]
      exact joinNL_all_space fun x hx c hc =>
        (pyStrip_eq_nil_iff.mp (hout x hx)) c hc
    rcases hce : s.code_example with _ | cfg
    · rw [prose_fold_blank (s.width.getD 72) content [] hall, List.nil_append]
      rw [if_neg (by simp [hm])]
      exact hblankout _ fun l hl => by rw [List.eq_of_mem_replicate hl]; rfl
    · rw [if_neg (by simp [hm])]
      obtain ⟨_, _, hout⟩ := exRun_blank_out fmt (cfg.start_marker.getD (pyStr "```python"))
        (cfg.end_marker.getD (pyStr "```")) hfmt content ⟨false, [], []⟩
        (fun hc => by simp at hc) rfl (by simp) hall
      exact hblankout _ hout

/-- The accumulation loop of `format_docstring` over blank lines keeps an
empty-marker (or absent) current section, blank buffered content, and
empty formatted strings. -/
theorem foldl_fdStep_blank (fmt : Fmt) (sections : List SectionSpec)
    (hfmt : fmt [] = none ∨ fmt [] = some []) (lines : List PyStr) :
    ∀ st : FmtState, (∀ s, st.current = some s → s.marker = []) →
      (∀ l ∈ st.content, pyStrip l = []) → (∀ f ∈ st.formatted, f = []) →
      (∀ l ∈ lines, pyStrip l = []) →
      (∀ s, (lines.foldl (fdStep fmt sections) st).current = some s → s.marker = []) ∧
        (∀ l ∈ (lines.foldl (fdStep fmt sections) st).content, pyStrip l = []) ∧
        (∀ f ∈ (lines.foldl (fdStep fmt sections) st).formatted, f = []) := by
  induction lines with
  | nil => intro st h1 h2 h3 _; exact ⟨h1, h2, h3⟩
  | cons l rest ih =>
    intro st h1 h2 h3 hall
    have hb : pyStrip l = [] := hall l (List.mem_cons_self _ _)
    have hrest : ∀ x ∈ rest, pyStrip x = [] := fun x hx => hall x (List.mem_cons_of_mem _ hx)
    rw [List.foldl_cons]
    rcases h : identifySection sections l with _ | s
    · rw [show fdStep fmt sections st l = ⟨st.current, st.content ++ [l], st.formatted⟩ by
        simp only [fdStep, h]]
      refine ih _ h1 ?_ h3 hrest
      intro x hx
      rcases List.mem_append.mp hx with hx' | hx'
      · exact h2 x hx'
      · rw [List.mem_singleton.mp hx']; exact hb
    · have hm : s.marker = [] := identifySection_blank h hb
      by_cases hne : some s ≠ st.current
      · rw [show fdStep fmt sections st l =
            ⟨some s, [],
              if st.current.isSome ∨ st.content ≠ [] then
                st.formatted ++ [formatSection fmt st.current st.content]
              else st.formatted⟩ by simp only [fdStep, h, if_pos hne]]
        refine ih _ (fun s' hs' => by rw [← Option.some_inj.mp hs']; exact hm)
          (by simp) ?_ hrest
        intro f hf
        by_cases hc : st.current.isSome ∨ st.content ≠ []
        · rw [if_pos hc] at hf
          rcases List.mem_append.mp hf with hf' | hf'
          · exact h3 f hf'
          · rw [List.mem_singleton.mp hf']
            exact formatSection_blank fmt hfmt st.current h1 st.content h2
        · rw [if_neg hc] at hf
          exact h3 f hf
      · rw [show fdStep fmt sections st l = ⟨st.current, st.content ++ [l], st.formatted⟩ by
          simp only [fdStep, h, if_neg hne]]
        refine ih _ h1 ?_ h3 hrest
        intro x hx
        rcases List.mem_append.mp hx with hx' | hx'
        · exact h2 x hx'
        · rw [List.mem_singleton.mp hx']; exact hb

/-! ## The width bound of the wrap model -/

theorem sumLen_nil : sumLen [] = 0 := rfl

theorem sumLen_cons (c : PyStr) (l : List PyStr) :
    sumLen (c :: l) = c.length + sumLen l := by
  simp [sumLen]

theorem sumLen_append (l₁ l₂ : List PyStr) :
    sumLen (l₁ ++ l₂) = sumLen l₁ + sumLen l₂ := by
  simp [sumLen]

theorem sumLen_dropLast_le (l : List PyStr) : sumLen l.dropLast ≤ sumLen l :=
  ((List.dropLast_sublist l).map List.length).sum_le_sum fun _ _ => Nat.zero_le _

theorem length_flatten_eq_sumLen (l : List PyStr) : l.flatten.length = sumLen l := by
  simp [sumLen]

theorem greedyTake_fst_sum (width : Nat) :
    ∀ (cs : List PyStr) (len : Nat),
      (greedyTake width cs len).2.1 = len + sumLen (greedyTake width cs len).1 := by
  intro cs
  induction cs with
  | nil => intro len; simp [greedyTake, sumLen_nil]
  | cons c rest ih =>
    intro len
    by_cases h : len + c.length ≤ width
    · have hrec := ih (len + c.length)
      rcases hg : greedyTake width rest (len + c.length) with ⟨tk, fl, rm⟩
      rw [hg] at hrec
      dsimp only at hrec
      rw [show greedyTake width (c :: rest) len = (c :: tk, fl, rm) by
        simp only [greedyTake]; rw [if_pos h, hg]]
      dsimp only
      rw [sumLen_cons]
      omega
    · rw [show greedyTake width (c :: rest) len = ([], len, c :: rest) by
        simp only [greedyTake]; rw [if_neg h]]
      dsimp only
      rw [sumLen_nil]
      omega

theorem greedyTake_fst_le (width : Nat) :
    ∀ (cs : List PyStr) (len : Nat), len ≤ width →
      (greedyTake width cs len).2.1 ≤ width := by
  intro cs
  induction cs with
  | nil => intro len h; exact h
  | cons c rest ih =>
    intro len h
    by_cases hc : len + c.length ≤ width
    · have hrec := ih (len + c.length) hc
      rcases hg : greedyTake width rest (len + c.length) with ⟨tk, fl, rm⟩
      rw [hg] at hrec
      dsimp only at hrec
      rw [show greedyTake width (c :: rest) len = (c :: tk, fl, rm) by
        simp only [greedyTake]; rw [if_pos hc, hg]]
      exact hrec
    · rw [show greedyTake width (c :: rest) len = ([], len, c :: rest) by
        simp only [greedyTake]; rw [if_neg hc]]
      exact h

theorem rfindHyphen_lt {s : PyStr} {h : Nat} (hh : rfindHyphen s = some h) :
    h < s.length := by
  induction s generalizing h with
  | nil => simp [rfindHyphen] at hh
  | cons c rest ih =>
    simp only [rfindHyphen] at hh
    rcases hr : rfindHyphen rest with _ | i
    · rw [hr] at hh
      by_cases hc : c = '-'
      · rw [if_pos hc] at hh
        simp only [Option.some_inj] at hh
        subst hh
        simp
      · rw [if_neg hc] at hh
        simp at hh
    · rw [hr] at hh
      have := ih hr
      simp only [Option.some_inj] at hh
      rw [← hh]
      simp only [List.length_cons]
      omega

theorem handleLongWord_take_le (width curLen : Nat) (c : PyStr)
    (hw : 1 ≤ width) (_hc : curLen ≤ width) :
    (handleLongWord width curLen c).1.length ≤ width - curLen := by
  simp only [handleLongWord, if_neg (by omega : ¬width < 1)]
  have hbound : ∀ e : Nat, e ≤ width - curLen → (c.take e).length ≤ width - curLen := by
    intro e he
    rw [List.length_take]
    omega
  by_cases hsp : width - curLen < c.length
  · rw [if_pos hsp]
    rcases hr : rfindHyphen (c.take (width - curLen)) with _ | h
    · exact hbound _ (le_refl _)
    · have hlt : h < (c.take (width - curLen)).length := rfindHyphen_lt hr
      rw [List.length_take] at hlt
      dsimp only
      by_cases hcond : 0 < h ∧ ((c.take h).any fun x => decide (x ≠ '-')) = true
      · rw [if_pos hcond]
        refine hbound _ ?_
        rw [lt_min_iff] at hlt
        omega
      · rw [if_neg hcond]
        exact hbound _ (le_refl _)
  · rw [if_neg hsp]
    exact hbound _ (le_refl _)

theorem step2_sumLen_le {width curLen : Nat} (hw : 1 ≤ width) (curLine rest : List PyStr)
    (hsum : curLen = sumLen curLine) (hle : curLen ≤ width) :
    sumLen (match rest with
      | c :: rest' =>
        if width < c.length then
          (curLine ++ [(handleLongWord width curLen c).1],
            (handleLongWord width curLen c).2 :: rest')
        else (curLine, c :: rest')
      | [] => (curLine, [])).1 ≤ width := by
  rcases rest with _ | ⟨c, rest'⟩
  · dsimp only
    omega
  · dsimp only
    by_cases hwc : width < c.length
    · rw [if_pos hwc]
      dsimp only
      rw [sumLen_append, sumLen_cons, sumLen_nil]
      have := handleLongWord_take_le width curLen c hw hle
      omega
    · rw [if_neg hwc]
      dsimp only
      omega

theorem dropTrailing_sumLen_le (cl2 : List PyStr) :
    sumLen (match cl2.getLast? with
      | some last => if pyStrip last = [] then cl2.dropLast else cl2
      | none => cl2) ≤ sumLen cl2 := by
  rcases hl : cl2.getLast? with _ | last
  · dsimp only
    exact le_refl _
  · dsimp only
    by_cases hb : pyStrip last = []
    · rw [if_pos hb]
      exact sumLen_dropLast_le _
    · rw [if_neg hb]

theorem wrapChunksGo_bound {width : Nat} (hw : 1 ≤ width) :
    ∀ (fuel : Nat) (chunks lines : List PyStr),
      (∀ l ∈ lines, l.length ≤ width) →
      ∀ l ∈ wrapChunksGo width fuel chunks lines, l.length ≤ width := by
  intro fuel
  induction fuel with
  | zero => intro chunks lines h; exact h
  | succ fuel ih =>
    intro chunks lines h
    match chunks with
    | [] => exact h
    | c0 :: rest0 =>
      rw [wrapChunksGo]
      apply ih
      intro l hl
      rcases hg : greedyTake width (if pyStrip c0 = [] ∧ lines ≠ [] then rest0 else c0 :: rest0) 0
        with ⟨curLine, curLen, rest⟩
      rw [hg] at hl
      dsimp only at hl
      have hsum : curLen = sumLen curLine := by
        have h' := greedyTake_fst_sum width
          (if pyStrip c0 = [] ∧ lines ≠ [] then rest0 else c0 :: rest0) 0
        rw [hg] at h'
        simpa using h'
      have hle : curLen ≤ width := by
        have h' := greedyTake_fst_le width
          (if pyStrip c0 = [] ∧ lines ≠ [] then rest0 else c0 :: rest0) 0 (Nat.zero_le _)
        rw [hg] at h'
        exact h'
      have h2 := step2_sumLen_le hw curLine rest hsum hle
      have h3 := dropTrailing_sumLen_le (match rest with
        | c :: rest' =>
          if width < c.length then
            (curLine ++ [(handleLongWord width curLen c).1],
              (handleLongWord width curLen c).2 :: rest')
          else (curLine, c :: rest')
        | [] => (curLine, [])).1
      set cl3 := (match (match rest with
        | c :: rest' =>
          if width < c.length then
            (curLine ++ [(handleLongWord width curLen c).1],
              (handleLongWord width curLen c).2 :: rest')
          else (curLine, c :: rest')
        | [] => (curLine, [])).1.getLast? with
        | some last => if pyStrip last = [] then
            (match rest with
              | c :: rest' =>
                if width < c.length then
                  (curLine ++ [(handleLongWord width curLen c).1],
                    (handleLongWord width curLen c).2 :: rest')
                else (curLine, c :: rest')
              | [] => (curLine, [])).1.dropLast
          else (match rest with
              | c :: rest' =>
                if width < c.length then
                  (curLine ++ [(handleLongWord width curLen c).1],
                    (handleLongWord width curLen c).2 :: rest')
                else (curLine, c :: rest')
              | [] => (curLine, [])).1
        | none => (match rest with
            | c :: rest' =>
              if width < c.length then
                (curLine ++ [(handleLongWord width curLen c).1],
                  (handleLongWord width curLen c).2 :: rest')
              else (curLine, c :: rest')
            | [] => (curLine, [])).1) with hcl3
    -- the emitted line, if any, is cl3.flatten
      by_cases hne : cl3 ≠ []
      · rw [if_pos hne] at hl
        rcases List.mem_append.mp hl with h' | h'
        · exact h l h'
        · rw [List.mem_singleton.mp h', length_flatten_eq_sumLen]
          exact le_trans (hcl3 ▸ h3) h2
      · rw [if_neg hne] at hl
        exact h l hl

/-- Every line produced by the wrap model has length at most the width
(for a positive width). -/
theorem pyWrap_length_le {text : PyStr} {width : Nat} (hw : 1 ≤ width) :
    ∀ l ∈ pyWrap text width, l.length ≤ width := by
  rw [pyWrap]
  exact wrapChunksGo_bound hw _ _ [] (by simp)

/-! ## Re-indentation of a formatted snippet -/

theorem not_nl_mem_of_mem_pySplitlines {s p : PyStr} (hp : p ∈ pySplitlines s) :
    nl ∉ p := by
  rw [pySplitlines] at hp
  by_cases hs : s = []
  · rw [if_pos hs] at hp
    simp at hp
  · rw [if_neg hs] at hp
    dsimp only at hp
    by_cases hlast : (splitNL s).getLast? = some []
    · rw [if_pos hlast] at hp
      exact not_nl_mem_of_mem_splitNL ((List.dropLast_sublist _).mem hp)
    · rw [if_neg hlast] at hp
      exact not_nl_mem_of_mem_splitNL hp

/-- When the collaborator succeeds, every non-blank line of its result
appears in the snippet output re-indented by the leading-whitespace count
of the original (pre-dedent) snippet text. -/
theorem formatCodeSnippet_reindent {fmt : Fmt} {code t : PyStr}
    (hfmt : fmt (dedent code) = some t) :
    ∀ l ∈ pySplitlines t, pyStrip l ≠ [] →
      (List.replicate (code.length - (pyLStrip code).length) ' ' ++ l)
        ∈ splitNL (formatCodeSnippet fmt code) := by
  intro l hl hnb
  rw [formatCodeSnippet, hfmt]
  have hne : (pySplitlines t).map (fun line =>
      if pyStrip line ≠ [] then
        List.replicate (code.length - (pyLStrip code).length) ' ' ++ line
      else line) ≠ [] := by
    intro he
    rw [List.map_eq_nil_iff] at he
    rw [he] at hl
    simp at hl
  have hnonl : ∀ x ∈ (pySplitlines t).map (fun line =>
      if pyStrip line ≠ [] then
        List.replicate (code.length - (pyLStrip code).length) ' ' ++ line
      else line), nl ∉ x := by
    intro x hx
    obtain ⟨line, hline, rfl⟩ := List.mem_map.mp hx
    have hlnl : nl ∉ line := not_nl_mem_of_mem_pySplitlines hline
    by_cases hb : pyStrip line ≠ []
    · rw [if_pos hb]
      intro hmem
      rcases List.mem_append.mp hmem with h | h
      · have := List.eq_of_mem_replicate h
        simp [nl] at this
      · exact hlnl h
    · rw [if_neg hb]
      exact hlnl
  rw [splitNL_joinNL hne hnonl]
  exact List.mem_map.mpr ⟨l, hl, by rw [if_pos hnb]⟩

/-! ## Single-line extensions of the two machines -/

theorem exRun_snoc (fmt : Fmt) (sM eM : PyStr) (pre : List PyStr) (line : PyStr) :
    exRun fmt sM eM (pre ++ [line]) = exStep fmt sM eM (exRun fmt sM eM pre) line := by
  rw [exRun_append]
  rfl

theorem accRun_snoc (sections : List SectionSpec) (pre : List PyStr) (line : PyStr) :
    accRun sections (pre ++ [line]) = accStep sections (accRun sections pre) line := by
  rw [accRun_append]
  rfl

/-! ## Concrete fixtures for counterexamples and witnesses -/

/-- Collaborator that always reports failure, so the original snippet is
kept (`black.InvalidInput` on every input). -/
def fmtFail : Fmt := fun _ => none

/-- Collaborator that always yields the tag text `FMT`; its absence from
an output shows the snippet formatter was never invoked. -/
def fmtTag : Fmt := fun _ => some (pyStr "FMT")

/-- Collaborator that always yields `x = 1`. -/
def fmtXEq1 : Fmt := fun _ => some (pyStr "x = 1")

/-- A narrow prose section with marker `X` and width 3. -/
def secX : SectionSpec := ⟨some (pyStr "X"), pyStr "X", some 3, none⟩

/-- A prose section with marker `Y` and width 72. -/
def secY : SectionSpec := ⟨some (pyStr "Y"), pyStr "Y", some 72, none⟩

/-- The implicit summary section: empty marker. -/
def secSummary : SectionSpec := ⟨some (pyStr "Summary"), pyStr "", some 72, none⟩

/-- A code-example configuration relying on both marker defaults. -/
def defaultCfg : CodeExampleConfig := ⟨none, none⟩

/-- A degenerate code-example configuration whose start and end markers
coincide. -/
def eqCfg : CodeExampleConfig := ⟨some (pyStr "```"), some (pyStr "```")⟩

/-! ## The claims -/

/-- Counterexample to C1: with an unterminated fence
(`["```python", "x=1"]`), `_format_code_example` emits only the fence
line; the buffered body line `x=1` is silently discarded, not emitted
unmodified as the claim states (and the collaborator tag `FMT` is absent,
so the formatter was indeed not invoked). -/
theorem claim_C1_counterexample :
    formatCodeExample fmtTag [pyStr "```python", pyStr "x=1"] defaultCfg =
        [pyStr "```python"] ∧
      pyStr "x=1" ∉ formatCodeExample fmtTag [pyStr "```python", pyStr "x=1"] defaultCfg := by
  decide

/-- C1 (amended): if the machine is INSIDE and the remaining lines match
neither marker, those lines are appended to the body buffer and
contribute nothing to the output — they are dropped, the snippet
formatter is not invoked on them, and no error is raised. -/
theorem claim_C1_theorem (fmt : Fmt) (cfg : CodeExampleConfig) (pre body : List PyStr)
    (sM eM : PyStr)
    (hs : sM = cfg.start_marker.getD (pyStr "```python"))
    (he : eM = cfg.end_marker.getD (pyStr "```"))
    (hin : (exRun fmt sM eM pre).inCode = true)
    (hbody : ∀ l ∈ body, pyStrip l ≠ sM ∧ pyStrip l ≠ eM) :
    formatCodeExample fmt (pre ++ body) cfg = formatCodeExample fmt pre cfg ∧
      (exRun fmt sM eM (pre ++ body)).codeBlock =
        (exRun fmt sM eM pre).codeBlock ++ body := by
  subst hs he
  have hfold := foldl_exStep_inside fmt _ _ body (exRun fmt _ _ pre) hin hbody
  constructor
  · simp only [formatCodeExample]
    rw [exRun_append, hfold]
  · rw [exRun_append, hfold]

/-- Witness for C1 at the counterexample input. -/
theorem claim_C1_witness :
    (exRun fmtTag (pyStr "```python") (pyStr "```") [pyStr "```python"]).inCode = true ∧
    formatCodeExample fmtTag ([pyStr "```python"] ++ [pyStr "x=1"]) defaultCfg =
      formatCodeExample fmtTag [pyStr "```python"] defaultCfg :=
  ⟨by decide,
    (claim_C1_theorem fmtTag defaultCfg [pyStr "```python"] [pyStr "x=1"] _ _ rfl rfl
      (by decide) (by decide)).1⟩

/-- Counterexample to C2: for schema `[X]` and input lines
`hello / X / world`, the header line `X` is consumed by the transition and
appears in no segment buffer, so the concatenated buffers are not the
input lines. -/
theorem claim_C2_counterexample :
    ((accumulateSegments [secX] (splitNL (pyStr "hello\nX\nworld"))).map Prod.snd).flatten ≠
      splitNL (pyStr "hello\nX\nworld") := by
  decide

/-- C2 (amended): the concatenated segment buffers form a subsequence of
the input lines — in original order, no line duplicated, none invented —
but lines that classify to a new section are consumed by the transition
and appear in no buffer, so the segments are not an exact partition. -/
theorem claim_C2_theorem (sections : List SectionSpec) (lines : List PyStr) :
    List.Sublist (((accumulateSegments sections lines).map Prod.snd).flatten) lines :=
  accumulateSegments_flatten_sublist sections lines

/-- Counterexample to C3: the start-marker line `"  ```python"` is emitted
stripped (`"```python"`), not unchanged with its leading whitespace. -/
theorem claim_C3_counterexample :
    formatCodeExample fmtFail [pyStr "  ```python"] defaultCfg = [pyStr "```python"] ∧
      pyStr "```python" ≠ pyStr "  ```python" := by
  decide

/-- C3 (amended): while OUTSIDE, a line whose stripped form equals the
start marker is emitted in **stripped** form (leading whitespace
discarded, no indent recorded anywhere in the state), and any line
matching neither marker passes through unchanged. -/
theorem claim_C3_theorem (fmt : Fmt) (sM eM : PyStr) (pre : List PyStr) (line : PyStr)
    (hout : (exRun fmt sM eM pre).inCode = false) :
    (pyStrip line = sM →
      exRun fmt sM eM (pre ++ [line]) =
        ⟨true, (exRun fmt sM eM pre).codeBlock,
          (exRun fmt sM eM pre).out ++ [pyStrip line]⟩) ∧
    (pyStrip line ≠ sM → pyStrip line ≠ eM →
      exRun fmt sM eM (pre ++ [line]) =
        ⟨false, (exRun fmt sM eM pre).codeBlock,
          (exRun fmt sM eM pre).out ++ [line]⟩) := by
  constructor
  · intro hs
    rw [exRun_snoc, exStep_start fmt sM eM _ line hs]
  · intro hs he
    rw [exRun_snoc, exStep_outside_other fmt sM eM _ line hout hs he]

/-- Witness for C3: the indented fence line is emitted stripped. -/
theorem claim_C3_witness :
    (exRun fmtFail (pyStr "```python") (pyStr "```") []).inCode = false ∧
    exRun fmtFail (pyStr "```python") (pyStr "```") ([] ++ [pyStr "  ```python"]) =
      ⟨true, [], [pyStr "```python"]⟩ := by
  refine ⟨by decide, ?_⟩
  rw [(claim_C3_theorem fmtFail (pyStr "```python") (pyStr "```") [] (pyStr "  ```python")
    (by decide)).1 (by decide)]
  decide

/-- Counterexample to C4: a fence opened at column 2 with a body line at
column 4 yields a formatted body line re-indented to column 4 (the body's
own leading-whitespace count), not to column 2 (the fence column). -/
theorem claim_C4_counterexample :
    formatCodeExample fmtXEq1 [pyStr "  ```python", pyStr "    x=1", pyStr "  ```"]
        defaultCfg =
      [pyStr "```python", pyStr "    x = 1", pyStr "```"] ∧
    pyStr "  ```python" = List.replicate 2 ' ' ++ pyStr "```python" ∧
    pyStr "    x = 1" ≠ List.replicate 2 ' ' ++ pyStr "x = 1" := by
  decide

/-- C4 (amended): when the collaborator succeeds, every non-blank line of
its result appears in the snippet output prefixed by
`len(code) - len(code.lstrip())` spaces — the leading-whitespace count of
the joined body text, not the recorded column of the start-marker line
(no such column is recorded at all). -/
theorem claim_C4_theorem (fmt : Fmt) (code t : PyStr)
    (hfmt : fmt (dedent code) = some t) :
    ∀ l ∈ pySplitlines t, pyStrip l ≠ [] →
      (List.replicate (code.length - (pyLStrip code).length) ' ' ++ l)
        ∈ splitNL (formatCodeSnippet fmt code) :=
  formatCodeSnippet_reindent hfmt

/-- Witness for C4 on the snippet `"  x=1"` (indent 2). -/
theorem claim_C4_witness :
    fmtXEq1 (dedent (pyStr "  x=1")) = some (pyStr "x = 1") ∧
    (List.replicate ((pyStr "  x=1").length - (pyLStrip (pyStr "  x=1")).length) ' ' ++
        pyStr "x = 1") ∈ splitNL (formatCodeSnippet fmtXEq1 (pyStr "  x=1")) :=
  ⟨rfl, claim_C4_theorem fmtXEq1 (pyStr "  x=1") (pyStr "x = 1") rfl (pyStr "x = 1")
    (by decide) (by decide)⟩

/-- Counterexample to C5: with width 4, the single 10-character token
`aaaaaaaaaa` is broken into `aaaa / aaaa / aa`, not emitted alone on its
own line (textwrap's default `break_long_words=True`). -/
theorem claim_C5_counterexample :
    pyWrap (pyStr "aaaaaaaaaa") 4 = [pyStr "aaaa", pyStr "aaaa", pyStr "aa"] ∧
      pyWrap (pyStr "aaaaaaaaaa") 4 ≠ [pyStr "aaaaaaaaaa"] := by
  decide

/-- C5 (amended): every wrapped output line has length at most the width
(positive width); a token longer than the width is **broken** into pieces
within the bound rather than emitted whole. -/
theorem claim_C5_theorem (text : PyStr) (width : Nat) (hw : 1 ≤ width) :
    ∀ l ∈ pyWrap text width, l.length ≤ width :=
  pyWrap_length_le hw

/-- Witness for C5 at width 4. -/
theorem claim_C5_witness :
    1 ≤ 4 ∧ ∀ l ∈ pyWrap (pyStr "hello world") 4, l.length ≤ 4 :=
  ⟨by decide, claim_C5_theorem (pyStr "hello world") 4 (by decide)⟩

/-- Counterexample to C6: after the header `X`, the line `hello`
classifies to none (different from the current section `X`), yet no flush
happens — `hello` is appended to `X`'s buffer and a single segment
results. -/
theorem claim_C6_counterexample :
    identifySection [secX] (pyStr "hello") = none ∧
    accumulateSegments [secX] [pyStr "X", pyStr "hello"] = [(some secX, [pyStr "hello"])] := by
  decide

/-- C6 (amended): a new segment starts exactly when classification yields
a **non-none** section different from the current one; a none result (or
a repeat of the current section) appends the line to the current buffer,
and a differing non-none result flushes (skipping the flush only when
both current section and buffer are empty) without buffering the line. -/
theorem claim_C6_theorem (sections : List SectionSpec) (pre : List PyStr) (line : PyStr) :
    (identifySection sections line = none →
      accRun sections (pre ++ [line]) =
        ⟨(accRun sections pre).current, (accRun sections pre).content ++ [line],
          (accRun sections pre).segs⟩) ∧
    (∀ s, identifySection sections line = some s → some s = (accRun sections pre).current →
      accRun sections (pre ++ [line]) =
        ⟨(accRun sections pre).current, (accRun sections pre).content ++ [line],
          (accRun sections pre).segs⟩) ∧
    (∀ s, identifySection sections line = some s → some s ≠ (accRun sections pre).current →
      accRun sections (pre ++ [line]) =
        ⟨some s, [],
          if (accRun sections pre).current.isSome ∨ (accRun sections pre).content ≠ [] then
            (accRun sections pre).segs ++
              [((accRun sections pre).current, (accRun sections pre).content)]
          else (accRun sections pre).segs⟩) := by
  refine ⟨?_, ?_, ?_⟩
  · intro h
    rw [accRun_snoc]
    simp only [accStep, h]
  · intro s h heq
    rw [accRun_snoc]
    simp only [accStep, h]
    rw [if_neg fun hn => hn heq]
  · intro s h hne
    rw [accRun_snoc]
    simp only [accStep, h]
    rw [if_pos hne]

/-- Witness for C6: the none-classified line is buffered, not flushed. -/
theorem claim_C6_witness :
    identifySection [secX] (pyStr "hello") = none ∧
    accRun [secX] ([pyStr "X"] ++ [pyStr "hello"]) =
      ⟨(accRun [secX] [pyStr "X"]).current,
        (accRun [secX] [pyStr "X"]).content ++ [pyStr "hello"],
        (accRun [secX] [pyStr "X"]).segs⟩ :=
  ⟨by decide, (claim_C6_theorem [secX] [pyStr "X"] (pyStr "hello")).1 (by decide)⟩

/-- Counterexample to C7: with schema `[X (width 3), Y]` and docstring
`"X\nfoo Y bar"`, the first pass wraps `foo Y bar` onto three lines, one
of which starts with the marker `Y`; the second pass classifies that line
as a new `Y` section and inserts a blank line, so
`format(format(d)) ≠ format(d)`. -/
theorem claim_C7_counterexample :
    formatDocstring fmtFail [secX, secY]
        (formatDocstring fmtFail [secX, secY] (pyStr "X\nfoo Y bar")) ≠
      formatDocstring fmtFail [secX, secY] (pyStr "X\nfoo Y bar") := by
  decide

/-- C7 (amended): idempotence does hold for the empty schema, where the
output is exactly the stripped non-blank lines. -/
theorem claim_C7_theorem (fmt : Fmt) (d : PyStr) :
    formatDocstring fmt [] (formatDocstring fmt [] d) = formatDocstring fmt [] d :=
  formatDocstring_nil_idem fmt fmt d

/-- C8 (confirmed): for every schema, an empty or whitespace-only
docstring formats to the empty string, assuming only that the
collaborator maps the empty snippet to an empty or failed result (as
`black` does). -/
theorem claim_C8_theorem (fmt : Fmt) (sections : List SectionSpec) (d : PyStr)
    (hfmt : fmt [] = none ∨ fmt [] = some []) (hd : pyStrip d = []) :
    formatDocstring fmt sections d = [] := by
  have hlines : ∀ l ∈ splitNL d, pyStrip l = [] := blank_lines_of_strip_nil hd
  simp only [formatDocstring]
  have hinit1 : ∀ s, (identifySection sections []) = some s → s.marker = [] :=
    fun s hs => identifySection_blank hs rfl
  obtain ⟨h1, h2, h3⟩ := foldl_fdStep_blank fmt sections hfmt (splitNL d)
    ⟨identifySection sections [], [], []⟩ hinit1 (by simp) (by simp) hlines
  set fin := (splitNL d).foldl (fdStep fmt sections)
    ⟨identifySection sections [], [], []⟩ with hfin
  have hall : ∀ f ∈ (if fin.current.isSome ∨ fin.content ≠ [] then
      fin.formatted ++ [formatSection fmt fin.current fin.content]
      else fin.formatted), f = [] := by
    intro f hf
    by_cases hc : fin.current.isSome ∨ fin.content ≠ []
    · rw [if_pos hc] at hf
      rcases List.mem_append.mp hf with h | h
      · exact h3 f h
      · rw [List.mem_singleton.mp h]
        exact formatSection_blank fmt hfmt fin.current h1 fin.content h2
    · rw [if_neg hc] at hf
      exact h3 f hf
  rw [List.filter_eq_nil_iff.mpr fun a ha => by simp [hall a ha]]
  rfl

/-- Witness for C8: a whitespace-only docstring under a two-section
schema formats to the empty string. -/
theorem claim_C8_witness :
    (fmtFail [] = none ∨ fmtFail [] = some []) ∧ pyStrip (pyStr "  \n \t") = [] ∧
    formatDocstring fmtFail [secSummary, secX] (pyStr "  \n \t") = [] :=
  ⟨Or.inl rfl, by decide,
    claim_C8_theorem fmtFail [secSummary, secX] (pyStr "  \n \t") (Or.inl rfl) (by decide)⟩

/-- Counterexample to C9: when the configured start and end markers
coincide (both three backticks), a line equal to the end marker is taken
by the **start** branch: no snippet-formatter call happens (no `FMT`
line) and the machine is left INSIDE, contradicting the claim for such a
configuration. -/
theorem claim_C9_counterexample :
    formatCodeExample fmtTag [pyStr "```"] eqCfg = [pyStr "```"] ∧
    (exRun fmtTag (pyStr "```") (pyStr "```") [pyStr "```"]).inCode = true := by
  decide

/-- C9 (amended): a line whose stripped form equals the end marker and
differs from the start marker is treated as a fence close regardless of
the machine's state: the snippet formatter runs on the (possibly empty)
buffered body, the state resets to OUTSIDE with an empty buffer, and the
line is emitted in stripped form. -/
theorem claim_C9_theorem (fmt : Fmt) (sM eM : PyStr) (pre : List PyStr) (line : PyStr)
    (hs : pyStrip line ≠ sM) (he : pyStrip line = eM) :
    exRun fmt sM eM (pre ++ [line]) =
      ⟨false, [],
        (exRun fmt sM eM pre).out ++
          splitNL (formatCodeSnippet fmt (joinNL (exRun fmt sM eM pre).codeBlock)) ++
          [pyStrip line]⟩ := by
  rw [exRun_snoc, exStep_end fmt sM eM _ line hs he]

/-- Witness for C9: an end-marker line with no start marker ever seen
still triggers the close behaviour. -/
theorem claim_C9_witness :
    pyStrip (pyStr "```") ≠ pyStr "```python" ∧
    (exRun fmtTag (pyStr "```python") (pyStr "```") [pyStr "hello"]).inCode = false ∧
    exRun fmtTag (pyStr "```python") (pyStr "```") ([pyStr "hello"] ++ [pyStr "```"]) =
      ⟨false, [],
        (exRun fmtTag (pyStr "```python") (pyStr "```") [pyStr "hello"]).out ++
          splitNL (formatCodeSnippet fmtTag
            (joinNL (exRun fmtTag (pyStr "```python") (pyStr "```") [pyStr "hello"]).codeBlock)) ++
          [pyStrip (pyStr "```")]⟩ :=
  ⟨by decide, by decide,
    claim_C9_theorem fmtTag (pyStr "```python") (pyStr "```") [pyStr "hello"] (pyStr "```")
      (by decide) (by decide)⟩

/-- C10 (confirmed): with an empty section list, `format_docstring`
returns the non-blank lines, each stripped, joined by single newlines. -/
theorem claim_C10_theorem (fmt : Fmt) (d : PyStr) :
    formatDocstring fmt [] d =
      joinNL (((splitNL d).filter fun l => pyStrip l ≠ []).map pyStrip) :=
  formatDocstring_nil_eq fmt d

end BlackPlus